import Mathlib

set_option maxRecDepth 8000

/-!
Verification of the beego cookie session backend (`session/sess_cookie.go`).

The store and provider (`CookieSessionStore`, `CookieProvider` and their
methods) are embedded directly from the source.  The secure-cookie codec
(`encodeCookie` / `decodeCookie`), the random key source
(`generateRandomKey`) and the standard-library collaborators
(`encoding/json.Unmarshal`, `crypto/aes.NewCipher`) are not part of the
source tree under inspection; they are modelled from the specification, as
documented on each such definition.

Modelling conventions:
* Go `interface{}` session keys/values become the closed variant `GoValue`
  (the spec asks for "a tagged union/variant over a closed set of
  serializable primitive types"); the `unsupported` variant stands for a
  value the serializer rejects (e.g. a function), so that encode failure is
  representable.
* Go maps become association lists (`GoMap`) with map-like operations.
* Mutation becomes explicit state passing; a Go `error` result becomes
  `Option String` (`none` = nil error) or `Except String`.
* Wall-clock time and the random IV, which the real codec obtains as side
  effects, are explicit arguments.
* Cryptography is modelled symbolically: encryption is an injective keyed
  tagging that the holder of the block key can invert, and the MAC is an
  injective keyed digest.  The specification's requirement that any
  single-byte flip of an encoded cookie is detected (true of a real MAC
  with overwhelming probability) is realized exactly in the model by a
  mod-3 checksum over the authenticated wire symbols.
-/

/-- Closed model of Go `interface{}` session keys/values.  `unsupported`
stands for a value whose type the gob serializer rejects. -/
inductive GoValue where
  | nil : GoValue
  | boolV (b : Bool) : GoValue
  | intV (i : Int) : GoValue
  | strV (s : String) : GoValue
  | unsupported (tyName : String) : GoValue
deriving DecidableEq, Repr

/-- Go `map[interface{}]interface{}`, as an association list. -/
abbrev GoMap := List (GoValue × GoValue)

/-- Go map read: `v, ok := m[k]`. -/
def mapGet (m : GoMap) (k : GoValue) : Option GoValue :=
  match m with
  | [] => none
  | (k1, v) :: rest => if k1 = k then some v else mapGet rest k

/-- Go map write: `m[k] = v` (overwrite in place, else append). -/
def mapSet (m : GoMap) (k v : GoValue) : GoMap :=
  match m with
  | [] => [(k, v)]
  | (k1, v1) :: rest => if k1 = k then (k, v) :: rest else (k1, v1) :: mapSet rest k v

/-- Go map delete: `delete(m, k)`. -/
def mapDelete (m : GoMap) (k : GoValue) : GoMap :=
  match m with
  | [] => []
  | (k1, v1) :: rest => if k1 = k then mapDelete rest k else (k1, v1) :: mapDelete rest k

/-- `CookieSessionStore` from `sess_cookie.go` (the `sync.RWMutex` guards
in-request concurrency and has no sequential content). -/
structure CookieSessionStore where
  sid : String
  values : GoMap
deriving DecidableEq, Repr

/-- `func (st *CookieSessionStore) Set(key, value interface{}) error`. -/
def CookieSessionStore.Set (st : CookieSessionStore) (key value : GoValue) :
    CookieSessionStore × Option String :=
  (⟨st.sid, mapSet st.values key value⟩, none)

/-- `func (st *CookieSessionStore) Get(key interface{}) interface{}`. -/
def CookieSessionStore.Get (st : CookieSessionStore) (key : GoValue) : GoValue :=
  match mapGet st.values key with
  | some v => v
  | none => GoValue.nil

/-- `func (st *CookieSessionStore) Delete(key interface{}) error`. -/
def CookieSessionStore.Delete (st : CookieSessionStore) (key : GoValue) :
    CookieSessionStore × Option String :=
  (⟨st.sid, mapDelete st.values key⟩, none)

/-- `func (st *CookieSessionStore) Flush() error`. -/
def CookieSessionStore.Flush (st : CookieSessionStore) :
    CookieSessionStore × Option String :=
  (⟨st.sid, []⟩, none)

/-- `func (st *CookieSessionStore) SessionID() string`. -/
def CookieSessionStore.SessionID (st : CookieSessionStore) : String :=
  st.sid

/-! ### Wire-format primitives of the modelled codec

All wire byte sequences are lists of symbols drawn from `{0, 1, 2}`.
A natural number is written in self-delimiting unary (`n` ones then a
zero); a list of naturals is written as its length followed by its
elements. -/

/-- Self-delimiting unary code for a natural number. -/
def encNat (n : Nat) : List Nat :=
  List.replicate n 1 ++ [0]

/-- Reads back one `encNat` code, returning the value and the rest. -/
def decNat (w : List Nat) : Option (Nat × List Nat) :=
  match w with
  | [] => none
  | 0 :: r => some (0, r)
  | 1 :: r =>
    match decNat r with
    | some (n, r1) => some (n + 1, r1)
    | none => none
  | _ :: _ => none

/-- Length-counted code for a list of naturals. -/
def encList (l : List Nat) : List Nat :=
  encNat l.length ++ (l.map encNat).flatten

/-- Reads back `k` consecutive `encNat` codes. -/
def decNats (k : Nat) (w : List Nat) : Option (List Nat × List Nat) :=
  match k with
  | 0 => some ([], w)
  | k1 + 1 =>
    match decNat w with
    | some (n, r) =>
      match decNats k1 r with
      | some (l, r1) => some (n :: l, r1)
      | none => none
    | none => none

/-- Reads back one `encList` code. -/
def decList (w : List Nat) : Option (List Nat × List Nat) :=
  match decNat w with
  | some (k, r) => decNats k r
  | none => none

/-- Splits a nonempty list into its initial part and its last element. -/
def unsnoc (w : List Nat) : Option (List Nat × Nat) :=
  match w with
  | [] => none
  | [x] => some ([], x)
  | x :: r =>
    match unsnoc r with
    | some (b, c) => some (x :: b, c)
    | none => none

/-- Renders one wire symbol as a URL-safe character. -/
def symToChar (n : Nat) : Char :=
  if n = 0 then 'a' else if n = 1 then 'b' else 'c'

/-- Reads one wire symbol back from a character; any character outside the
wire alphabet is rejected. -/
def charToSym (c : Char) : Option Nat :=
  if c = 'a' then some 0 else if c = 'b' then some 1
  else if c = 'c' then some 2 else none

/-- Renders a wire symbol list as the cookie string. -/
def renderWire (w : List Nat) : String :=
  String.mk (w.map symToChar)

/-- Reads a cookie string back into wire symbols, rejecting foreign
characters. -/
def strToWire (l : List Char) : Option (List Nat) :=
  match l with
  | [] => some []
  | c :: r =>
    match charToSym c with
    | some x =>
      match strToWire r with
      | some w => some (x :: w)
      | none => none
    | none => none

/-- Wire symbol lists range over the alphabet `{0, 1, 2}`. -/
def wireValid (w : List Nat) : Prop :=
  ∀ x ∈ w, x < 3

/-! ### Serialization of session values (models the gob round of the codec) -/

/-- The bytes of a Go string. -/
def strBytes (s : String) : List Nat :=
  s.data.map Char.toNat

/-- Sign-magnitude code for an integer. -/
def encInt (i : Int) : List Nat :=
  match i with
  | .ofNat n => encNat 0 ++ encNat n
  | .negSucc n => encNat 1 ++ encNat (n + 1)

/-- Serializes a single session value; fails on `unsupported`, the way gob
fails on a value of unsupported type. -/
def encGoValue (v : GoValue) : Option (List Nat) :=
  match v with
  | .nil => some (encNat 0)
  | .boolV b => some (encNat 1 ++ encNat (cond b 1 0))
  | .intV i => some (encNat 2 ++ encInt i)
  | .strV s => some (encNat 3 ++ encList (strBytes s))
  | .unsupported _ => none

/-- Reads one serialized session value back. -/
def decGoValue (w : List Nat) : Option (GoValue × List Nat) :=
  match decNat w with
  | none => none
  | some (0, r) => some (.nil, r)
  | some (1, r) =>
    match decNat r with
    | some (0, r1) => some (.boolV false, r1)
    | some (1, r1) => some (.boolV true, r1)
    | _ => none
  | some (2, r) =>
    match decNat r with
    | some (0, r1) =>
      match decNat r1 with
      | some (n, r2) => some (.intV (Int.ofNat n), r2)
      | none => none
    | some (1, r1) =>
      match decNat r1 with
      | some (n, r2) => some (.intV (-(Int.ofNat n)), r2)
      | none => none
    | _ => none
  | some (3, r) =>
    match decList r with
    | some (codes, r1) => some (.strV (String.mk (codes.map Char.ofNat)), r1)
    | none => none
  | some (_ + 4, _) => none

/-- Serializes the entries of a session mapping, in order. -/
def encPairs (m : GoMap) : Option (List Nat) :=
  match m with
  | [] => some []
  | (k, v) :: rest =>
    match encGoValue k, encGoValue v, encPairs rest with
    | some a, some b, some r => some (a ++ b ++ r)
    | _, _, _ => none

/-- Serializes a session mapping: entry count, then the entries. -/
def serializeMap (m : GoMap) : Option (List Nat) :=
  match encPairs m with
  | some bs => some (encNat m.length ++ bs)
  | none => none

/-- Reads back `k` serialized mapping entries. -/
def decPairs (k : Nat) (w : List Nat) : Option (GoMap × List Nat) :=
  match k with
  | 0 => some ([], w)
  | k1 + 1 =>
    match decGoValue w with
    | some (a, r) =>
      match decGoValue r with
      | some (b, r1) =>
        match decPairs k1 r1 with
        | some (m, r2) => some ((a, b) :: m, r2)
        | none => none
      | none => none
    | none => none

/-- Deserializes a session mapping, requiring the input to be consumed
exactly; any leftover or malformed input is a deserialization failure. -/
def deserializeMap (w : List Nat) : Option GoMap :=
  match decNat w with
  | some (k, r) =>
    match decPairs k r with
    | some (m, []) => some m
    | _ => none
  | none => none

/-! ### Symbolic cipher and MAC (modelled from the spec) -/

/-- Modelled from the spec: the AES cipher instance (`cipher.Block`) that
`crypto/aes.NewCipher` derives from the block key.  Modelled symbolically
as the key it holds. -/
structure BlockCipher where
  key : String
deriving DecidableEq, Repr

/-- Modelled from the spec: symmetric encryption with a fresh IV prepended
to the ciphertext.  Symbolic: an injective keyed tagging of the plaintext
that `decrypt` inverts exactly for the holder of the same block key. -/
def encrypt (block : BlockCipher) (iv : Nat) (pt : List Nat) : List Nat :=
  encNat iv ++ encList (strBytes block.key) ++ encList pt

/-- Modelled from the spec: decryption, the inverse of `encrypt` under the
same block key; anything else is rejected as corrupt. -/
def decrypt (block : BlockCipher) (ct : List Nat) : Option (List Nat) :=
  match decNat ct with
  | some (_, r) =>
    match decList r with
    | some (k, r1) =>
      if k = strBytes block.key then
        match decList r1 with
        | some (pt, []) => some pt
        | _ => none
      else none
    | none => none
  | none => none

/-- Modelled from the spec: the keyed authentication tag over the
ciphertext, the security name and the timestamp, keyed by the security
key.  Symbolic: an injective digest of exactly those inputs. -/
def mac (securityKey securityName : String) (ts : Nat) (ct : List Nat) : List Nat :=
  encList (strBytes securityKey) ++ encList (strBytes securityName) ++
    encNat ts ++ encList ct

/-! ### The secure-cookie codec (modelled from the spec) -/

/-- Modelled from the spec: `encodeCookie(block, securityKey, securityName,
values)` from the codec, which is outside the inspected source tree.
Serializes the mapping, encrypts it with a fresh IV, tags it with the MAC
over ciphertext/name/timestamp, concatenates timestamp, tag and ciphertext
and renders a URL-safe string.  The trailing mod-3 checksum symbol is the
model's exact realization of the MAC's single-byte-flip detection.  The
current time `now` and the IV, side effects in the real code, are explicit
arguments. -/
def encodeCookie (block : BlockCipher) (securityKey securityName : String)
    (values : GoMap) (now : Nat) (iv : Nat) : Except String String :=
  match serializeMap values with
  | none => .error "gob: unsupported value type"
  | some pt =>
    let ct := encrypt block iv pt
    let tag := mac securityKey securityName now ct
    let body := encNat now ++ encList tag ++ encList ct
    .ok (renderWire (body ++ [body.sum % 3]))

/-- Modelled from the spec: the authentication stage of `decodeCookie` —
parse the wire string, verify the checksum, split timestamp, tag and
ciphertext, and verify the tag.  Returns the timestamp and ciphertext only
when every authentication check passes. -/
def checkAuth (securityKey securityName : String) (s : String) :
    Option (Nat × List Nat) :=
  match strToWire s.data with
  | none => none
  | some w =>
    match unsnoc w with
    | none => none
    | some (body, ck) =>
      if body.sum % 3 = ck then
        match decNat body with
        | none => none
        | some (ts, r1) =>
          match decList r1 with
          | none => none
          | some (tag, r2) =>
            match decList r2 with
            | none => none
            | some (ct, r3) =>
              if r3 = [] ∧ tag = mac securityKey securityName ts ct then
                some (ts, ct)
              else none
      else none

/-- Modelled from the spec: `decodeCookie(block, securityKey, securityName,
cookieString, maxAge)`.  Authentication first, then the expiry check
`now - timestamp <= maxAge`, and only then decryption and
deserialization; every failure yields `none` (the nil map of the Go
code), never a partial mapping.  The current time is an explicit
argument. -/
def decodeCookie (block : BlockCipher) (securityKey securityName : String)
    (s : String) (maxAge now : Int) : Option GoMap :=
  match checkAuth securityKey securityName s with
  | none => none
  | some (ts, ct) =>
    if now - (ts : Int) > maxAge then none
    else
      match decrypt block ct with
      | none => none
      | some pt => deserializeMap pt

/-! ### Provider, configuration and HTTP surface -/

/-- `cookieConfig` from `sess_cookie.go`. -/
structure cookieConfig where
  SecurityKey : String
  BlockKey : String
  SecurityName : String
  CookieName : String
  Secure : Bool
  Maxage : Int
deriving DecidableEq, Repr

/-- `CookieProvider` from `sess_cookie.go`. -/
structure CookieProvider where
  maxlifetime : Int
  config : cookieConfig
  block : BlockCipher
deriving DecidableEq, Repr

/-- `http.Cookie` with the fields `SessionRelease` sets. -/
structure HttpCookie where
  Name : String
  Value : String
  Path : String
  HttpOnly : Bool
  Secure : Bool
  MaxAge : Int
deriving DecidableEq, Repr

/-- Modelled from the spec: `net/url.QueryEscape` (external collaborator).
Characters outside the unreserved set are percent-encoded; space becomes
a plus sign. -/
def urlQueryEscape (s : String) : String :=
  String.mk (s.data.flatMap fun c =>
    if ('A' ≤ c ∧ c ≤ 'Z') ∨ ('a' ≤ c ∧ c ≤ 'z') ∨ ('0' ≤ c ∧ c ≤ '9') ∨
        c = '-' ∨ c = '_' ∨ c = '.' ∨ c = '~' then [c]
    else if c = ' ' then ['+']
    else ['%', (Nat.digitChar (c.toNat / 16 % 16)).toUpper,
          (Nat.digitChar (c.toNat % 16)).toUpper])

/-- `func (st *CookieSessionStore) SessionRelease(w http.ResponseWriter)`.
The package-global `cookiepder` that the method reads is passed as `pder`;
the cookies the call appends to the response are returned (empty on
encode failure, when the method returns without setting a cookie). -/
def CookieSessionStore.SessionRelease (st : CookieSessionStore)
    (pder : CookieProvider) (now iv : Nat) : List HttpCookie :=
  match encodeCookie pder.block pder.config.SecurityKey
      pder.config.SecurityName st.values now iv with
  | .error _ => []
  | .ok str =>
    [{ Name := pder.config.CookieName
       Value := urlQueryEscape str
       Path := "/"
       HttpOnly := true
       Secure := pder.config.Secure
       MaxAge := pder.config.Maxage }]

/-- Modelled from the spec: the configuration payload as seen through
`encoding/json.Unmarshal` (external collaborator): either a payload the
unmarshaller rejects, or a parsed `cookieConfig`. -/
inductive ConfigPayload where
  | malformed (raw : String) : ConfigPayload
  | wellFormed (c : cookieConfig) : ConfigPayload
deriving DecidableEq, Repr

/-- Modelled from the spec: `encoding/json.Unmarshal` on a `cookieConfig`
target. -/
def jsonUnmarshalConfig (p : ConfigPayload) : Except String cookieConfig :=
  match p with
  | .malformed _ => .error "invalid character in JSON"
  | .wellFormed c => .ok c

/-- Modelled from the spec: `crypto/aes.NewCipher` (external collaborator),
which accepts exactly the AES key lengths 16, 24 and 32 bytes. -/
def aesNewCipher (key : String) : Except String BlockCipher :=
  if key.length = 16 ∨ key.length = 24 ∨ key.length = 32 then .ok ⟨key⟩
  else .error "crypto/aes: invalid key size"

/-- `func (pder *CookieProvider) SessionInit(maxlifetime int64, config
string) error`.  `generateRandomKey` (repository code outside the
inspected tree, modelled from the spec as the random key source) is the
oracle `rnd`, where `rnd n` is a fresh random string of `n` bytes.  The
mutated provider is returned on success. -/
def SessionInit (rnd : Nat → String) (maxlifetime : Int)
    (config : ConfigPayload) : Except String CookieProvider :=
  match jsonUnmarshalConfig config with
  | .error e => .error e
  | .ok c0 =>
    let c1 := if c0.BlockKey = "" then { c0 with BlockKey := rnd 16 } else c0
    let c2 := if c1.SecurityName = "" then { c1 with SecurityName := rnd 20 } else c1
    match aesNewCipher c2.BlockKey with
    | .error e => .error e
    | .ok b => .ok { maxlifetime := maxlifetime, config := c2, block := b }

/-- `func (pder *CookieProvider) SessionRead(sid string) (SessionStore,
error)`.  The decode error is discarded and a nil mapping is replaced by a
fresh empty one, exactly as in the source. -/
def SessionRead (pder : CookieProvider) (sid : String) (now : Int) :
    CookieSessionStore × Option String :=
  let maps := decodeCookie pder.block pder.config.SecurityKey
    pder.config.SecurityName sid pder.maxlifetime now
  (⟨sid, maps.getD []⟩, none)

/-- `func (pder *CookieProvider) SessionExist(sid string) bool`. -/
def SessionExist (_ : CookieProvider) (_ : String) : Bool :=
  true

/-- `func (pder *CookieProvider) SessionRegenerate(oldsid, sid string)
(SessionStore, error)`: returns `(nil, nil)`. -/
def SessionRegenerate (_ : CookieProvider) (_ _ : String) :
    Option CookieSessionStore × Option String :=
  (none, none)

/-- `func (pder *CookieProvider) SessionDestroy(sid string) error`. -/
def SessionDestroy (_ : CookieProvider) (_ : String) : Option String :=
  none

/-- `func (pder *CookieProvider) SessionGC()`. -/
def SessionGC (_ : CookieProvider) : Unit :=
  ()

/-- `func (pder *CookieProvider) SessionAll() int`. -/
def SessionAll (_ : CookieProvider) : Int :=
  0

/-- `func (pder *CookieProvider) SessionUpdate(sid string) error`. -/
def SessionUpdate (_ : CookieProvider) (_ : String) : Option String :=
  none
/-! ### Concrete fixtures for evaluating the model on closed inputs -/

/-- A small concrete cipher instance. -/
def blkW : BlockCipher := ⟨""⟩

/-- A concrete provider configuration. -/
def cfg0 : cookieConfig := ⟨"", "k", "", "gosessionid", false, 3600⟩

/-- A concrete provider state. -/
def pder0 : CookieProvider := ⟨60, cfg0, blkW⟩

/-- The cookie string encoding the empty mapping at time 1 with IV 0. -/
def c1s : String :=
  match encodeCookie blkW "" "" [] 1 0 with
  | .ok s => s
  | .error _ => ""

/-- The ciphertext embedded in `c1s`. -/
def c1ct : List Nat :=
  match checkAuth "" "" c1s with
  | some p => p.2
  | none => []

/-- The cookie string encoding the empty mapping at time 5 with IV 0. -/
def c4s : String :=
  match encodeCookie blkW "" "" [] 5 0 with
  | .ok s => s
  | .error _ => ""

/-- A concrete store holding no values. -/
def st0 : CookieSessionStore := ⟨"sid0", []⟩

/-- A concrete store holding a value the serializer rejects. -/
def stBad : CookieSessionStore := ⟨"sidbad", [(GoValue.nil, GoValue.unsupported "func")]⟩

/-- A concrete random key source delivering the requested number of bytes. -/
def rnd0 (n : Nat) : String := String.mk (List.replicate n 'x')

/-- A configuration with empty block key and security name (both get
generated) and a max age differing from the init lifetime. -/
def cfg5 : cookieConfig := ⟨"sk", "", "", "cn", true, 10⟩

/-- A configuration whose block key has a length AES rejects. -/
def cfgBad5 : cookieConfig := ⟨"sk", "shortkey", "nm", "cn", false, 10⟩

/-- The provider produced by a successful `SessionInit` on `cfg5`. -/
def pder5 : CookieProvider :=
  match SessionInit rnd0 7 (.wellFormed cfg5) with
  | .ok p => p
  | .error _ => pder0


/-! ### Lemmas: wire primitives -/

theorem decNat_encNat (n : Nat) (r : List Nat) :
    decNat (encNat n ++ r) = some (n, r) := by
  induction n with
  | zero => simp [encNat, decNat]
  | succ k ih =>
    simp only [encNat, List.append_assoc, List.singleton_append] at ih
    simp only [encNat, List.replicate_succ, List.cons_append, List.append_assoc,
      List.singleton_append]
    simp [decNat, ih]

theorem decNats_encs (l : List Nat) (r : List Nat) :
    decNats l.length ((l.map encNat).flatten ++ r) = some (l, r) := by
  induction l generalizing r with
  | nil => simp [decNats]
  | cons x xs ih =>
    simp only [List.map_cons, List.flatten_cons, List.length_cons, List.append_assoc]
    simp [decNats, decNat_encNat, ih]

theorem decList_encList (l : List Nat) (r : List Nat) :
    decList (encList l ++ r) = some (l, r) := by
  simp only [decList, encList, List.append_assoc, decNat_encNat]
  exact decNats_encs l r

theorem unsnoc_append (b : List Nat) (c : Nat) :
    unsnoc (b ++ [c]) = some (b, c) := by
  induction b with
  | nil => simp [unsnoc]
  | cons x xs ih =>
    cases hx : xs ++ [c] with
    | nil => simp at hx
    | cons y ys =>
      simp only [List.cons_append, unsnoc, hx] at ih ⊢
      rw [← hx] at ih ⊢
      simp [ih]

theorem charToSym_symToChar (x : Nat) (h : x < 3) :
    charToSym (symToChar x) = some x := by
  interval_cases x <;> simp [symToChar, charToSym]

theorem strToWire_renderWire (w : List Nat) (h : wireValid w) :
    strToWire (w.map symToChar) = some w := by
  induction w with
  | nil => simp [strToWire]
  | cons x xs ih =>
    have hx : x < 3 := h x (by simp)
    have hxs : wireValid xs := fun y hy => h y (by simp [hy])
    simp [strToWire, charToSym_symToChar x hx, ih hxs]

theorem wireValid_append (a b : List Nat) (ha : wireValid a) (hb : wireValid b) :
    wireValid (a ++ b) := by
  intro x hx
  rcases List.mem_append.mp hx with h | h
  · exact ha x h
  · exact hb x h

theorem wireValid_encNat (n : Nat) : wireValid (encNat n) := by
  intro x hx
  simp only [encNat] at hx
  rcases List.mem_append.mp hx with h | h
  · rw [List.eq_of_mem_replicate h]; omega
  · simp at h; omega

theorem wireValid_encList (l : List Nat) : wireValid (encList l) := by
  refine wireValid_append _ _ (wireValid_encNat _) ?_
  intro x hx
  rcases List.mem_flatten.mp hx with ⟨seg, hseg, hxseg⟩
  rcases List.mem_map.mp hseg with ⟨n, _, rfl⟩
  exact wireValid_encNat n x hxseg

theorem sum_set (l : List Nat) (i : Nat) (y : Nat) (h : i < l.length) :
    (l.set i y).sum + l.get ⟨i, h⟩ = l.sum + y := by
  induction l generalizing i with
  | nil => simp at h
  | cons x xs ih =>
    cases i with
    | zero => simp [List.set]; omega
    | succ j =>
      simp only [List.set, List.sum_cons, List.get, List.length_cons] at h ⊢
      have := ih j (by omega)
      omega

theorem strToWire_length (l : List Char) (w : List Nat)
    (h : strToWire l = some w) : w.length = l.length := by
  induction l generalizing w with
  | nil => simp [strToWire] at h; simp [← h]
  | cons c r ih =>
    simp only [strToWire] at h
    cases hc : charToSym c with
    | none => rw [hc] at h; simp at h
    | some x =>
      rw [hc] at h
      cases hr : strToWire r with
      | none => rw [hr] at h; simp at h
      | some w1 =>
        rw [hr] at h
        simp only [Option.some.injEq] at h
        subst h
        simp [ih w1 hr]

theorem strToWire_set (l : List Char) (w : List Nat) (i : Nat) (c : Char)
    (h : strToWire l = some w) (hi : i < l.length) :
    strToWire (l.set i c) =
      match charToSym c with
      | none => none
      | some y => some (w.set i y) := by
  induction l generalizing w i with
  | nil => simp at hi
  | cons c0 r ih =>
    simp only [strToWire] at h
    cases hc0 : charToSym c0 with
    | none => rw [hc0] at h; simp at h
    | some x0 =>
      rw [hc0] at h
      cases hr : strToWire r with
      | none => rw [hr] at h; simp at h
      | some w1 =>
        rw [hr] at h
        simp only [Option.some.injEq] at h
        subst h
        cases i with
        | zero =>
          simp only [List.set]
          cases hc : charToSym c with
          | none => simp [strToWire, hc]
          | some y => simp [strToWire, hc, hr]
        | succ j =>
          simp only [List.set, strToWire, hc0]
          have hj : j < r.length := by simp at hi; omega
          have := ih w1 j hr hj
          cases hc : charToSym c with
          | none => rw [hc] at this; simp only at this; rw [this]
          | some y => rw [hc] at this; simp only at this; rw [this]

theorem strToWire_get (l : List Char) (w : List Nat) (i : Nat)
    (h : strToWire l = some w) (hi : i < l.length) (hw : i < w.length) :
    charToSym (l.get ⟨i, hi⟩) = some (w.get ⟨i, hw⟩) := by
  induction l generalizing w i with
  | nil => simp at hi
  | cons c0 r ih =>
    simp only [strToWire] at h
    cases hc0 : charToSym c0 with
    | none => rw [hc0] at h; simp at h
    | some x0 =>
      rw [hc0] at h
      cases hr : strToWire r with
      | none => rw [hr] at h; simp at h
      | some w1 =>
        rw [hr] at h
        simp only [Option.some.injEq] at h
        subst h
        cases i with
        | zero => simpa [List.get] using hc0
        | succ j =>
          have hj : j < r.length := by simp at hi; omega
          have hwj : j < w1.length := by simp at hw; omega
          exact ih w1 j hr hj hwj

/-! ### Lemmas: value serialization and the symbolic cipher -/

theorem decGoValue_encGoValue (v : GoValue) (b : List Nat) (r : List Nat)
    (h : encGoValue v = some b) : decGoValue (b ++ r) = some (v, r) := by
  cases v with
  | nil =>
    simp only [encGoValue, Option.some.injEq] at h
    subst h
    simp [decGoValue, decNat_encNat]
  | boolV bv =>
    simp only [encGoValue, Option.some.injEq] at h
    subst h
    cases bv <;>
      simp [decGoValue, List.append_assoc, decNat_encNat]
  | intV i =>
    simp only [encGoValue, Option.some.injEq] at h
    subst h
    cases i with
    | ofNat n =>
      simp [decGoValue, encInt, List.append_assoc, decNat_encNat]
    | negSucc n =>
      simp only [decGoValue, encInt, List.append_assoc, decNat_encNat]
      simp [Int.negSucc_eq]
  | strV s =>
    simp only [encGoValue, Option.some.injEq] at h
    subst h
    simp only [decGoValue, List.append_assoc, decNat_encNat, decList_encList]
    have hmap : (strBytes s).map Char.ofNat = s.data := by
      simp [strBytes, List.map_map, Function.comp_def, Char.ofNat_toNat]
    simp [hmap]
  | unsupported t => simp [encGoValue] at h

theorem decPairs_encPairs (m : GoMap) (bs : List Nat) (r : List Nat)
    (h : encPairs m = some bs) : decPairs m.length (bs ++ r) = some (m, r) := by
  induction m generalizing bs r with
  | nil =>
    simp only [encPairs, Option.some.injEq] at h
    subst h
    simp [decPairs]
  | cons p rest ih =>
    obtain ⟨k, v⟩ := p
    simp only [encPairs] at h
    cases ha : encGoValue k with
    | none => rw [ha] at h; simp at h
    | some a =>
      cases hb : encGoValue v with
      | none => rw [ha, hb] at h; simp at h
      | some b =>
        cases hrest : encPairs rest with
        | none => rw [ha, hb, hrest] at h; simp at h
        | some rbs =>
          rw [ha, hb, hrest] at h
          simp only [Option.some.injEq] at h
          subst h
          simp [decPairs, List.append_assoc, decGoValue_encGoValue k a _ ha,
            decGoValue_encGoValue v b _ hb, ih rbs r hrest]

theorem deserializeMap_serializeMap (m : GoMap) (pt : List Nat)
    (h : serializeMap m = some pt) : deserializeMap pt = some m := by
  simp only [serializeMap] at h
  cases hbs : encPairs m with
  | none => rw [hbs] at h; simp at h
  | some bs =>
    rw [hbs] at h
    simp only [Option.some.injEq] at h
    subst h
    have hd := decPairs_encPairs m bs [] hbs
    rw [List.append_nil] at hd
    simp [deserializeMap, decNat_encNat, hd]

theorem decrypt_encrypt (block : BlockCipher) (iv : Nat) (pt : List Nat) :
    decrypt block (encrypt block iv pt) = some pt := by
  have hl := decList_encList pt []
  rw [List.append_nil] at hl
  simp [decrypt, encrypt, List.append_assoc, decNat_encNat, decList_encList, hl]

/-! ### Lemmas: the codec round trip and authentication -/

theorem checkAuth_encodeCookie (block : BlockCipher)
    (securityKey securityName : String) (values : GoMap) (now iv : Nat)
    (s : String) (h : encodeCookie block securityKey securityName values now iv = .ok s) :
    ∃ pt, serializeMap values = some pt ∧
      checkAuth securityKey securityName s =
        some (now, encrypt block iv pt) := by
  simp only [encodeCookie] at h
  cases hpt : serializeMap values with
  | none => rw [hpt] at h; simp at h
  | some pt =>
    rw [hpt] at h
    simp only [Except.ok.injEq] at h
    refine ⟨pt, rfl, ?_⟩
    set ct := encrypt block iv pt with hct
    set tag := mac securityKey securityName now ct with htag
    set body := encNat now ++ encList tag ++ encList ct with hbody
    have hvalid : wireValid (body ++ [body.sum % 3]) := by
      refine wireValid_append _ _ ?_ ?_
      · refine wireValid_append _ _ (wireValid_append _ _ (wireValid_encNat _)
          (wireValid_encList _)) (wireValid_encList _)
      · intro x hx
        simp only [List.mem_singleton] at hx
        subst hx
        omega
    have hlct := decList_encList ct []
    rw [List.append_nil] at hlct
    subst h
    simp only [checkAuth, renderWire]
    rw [strToWire_renderWire _ hvalid]
    simp only [unsnoc_append]
    simp only [hbody, List.append_assoc, decNat_encNat, decList_encList, hlct]
    simp [htag, hct, hbody]

theorem decodeCookie_encodeCookie (block : BlockCipher)
    (securityKey securityName : String) (values : GoMap) (now iv : Nat)
    (maxAge nowD : Int) (s : String)
    (henc : encodeCookie block securityKey securityName values now iv = .ok s)
    (hage : nowD - (now : Int) ≤ maxAge) :
    decodeCookie block securityKey securityName s maxAge nowD = some values := by
  obtain ⟨pt, hpt, hchk⟩ :=
    checkAuth_encodeCookie block securityKey securityName values now iv s henc
  simp only [decodeCookie, hchk]
  rw [if_neg (by omega)]
  rw [decrypt_encrypt]
  exact deserializeMap_serializeMap values pt hpt
/-! ### Lemmas: tamper rejection -/

theorem charToSym_some (c : Char) (y : Nat) (h : charToSym c = some y) :
    c = symToChar y ∧ y < 3 := by
  refine ⟨?_, ?_⟩
  · simp only [charToSym] at h
    split_ifs at h <;> simp only [Option.some.injEq] at h <;> subst h <;>
      simp_all [symToChar]
  · simp only [charToSym] at h
    split_ifs at h <;> simp only [Option.some.injEq] at h <;> omega

theorem set_append_last {α : Type} (b : List α) (ck y : α) :
    (b ++ [ck]).set b.length y = b ++ [y] := by
  induction b with
  | nil => simp
  | cons x xs ih => simp [List.set, ih]

/-- Any single modified symbol in an authenticated wire is caught by the
checksum, so authentication fails. -/
theorem checkAuth_set (securityKey securityName : String) (body : List Nat)
    (w : List Nat) (hw : w = body ++ [body.sum % 3]) (i y : Nat)
    (hvalid : wireValid w) (hi : i < w.length) (hy : y < 3)
    (hne : y ≠ w.get ⟨i, hi⟩) :
    checkAuth securityKey securityName (renderWire (w.set i y)) = none := by
  subst hw
  have hilen : i < body.length + 1 := by simpa using hi
  have hvalid2 : wireValid ((body ++ [body.sum % 3]).set i y) := by
    intro x hx
    rcases List.mem_or_eq_of_mem_set hx with h | h
    · exact hvalid x h
    · omega
  rcases Nat.lt_or_ge i body.length with hlt | hge
  · have hset : (body ++ [body.sum % 3]).set i y = body.set i y ++ [body.sum % 3] :=
      List.set_append_left _ _ hlt
    have hgi : (body ++ [body.sum % 3]).get ⟨i, hi⟩ = body.get ⟨i, hlt⟩ := by
      simp [List.get_eq_getElem, List.getElem_append_left hlt]
    have hbival : body.get ⟨i, hlt⟩ < 3 := by
      have : body.get ⟨i, hlt⟩ ∈ body ++ [body.sum % 3] :=
        List.mem_append.mpr (Or.inl (body.get_mem i hlt))
      exact hvalid _ this
    have hsum := sum_set body i y hlt
    have hcks : ¬((body.set i y).sum % 3 = body.sum % 3) := by
      rw [hgi] at hne
      omega
    rw [hset]
    simp only [checkAuth, renderWire]
    rw [strToWire_renderWire _ (hset ▸ hvalid2)]
    simp only [unsnoc_append]
    simp [hcks]
  · have hieq : i = body.length := by omega
    subst hieq
    have hset : (body ++ [body.sum % 3]).set body.length y = body ++ [y] :=
      set_append_last body _ y
    have hgi : (body ++ [body.sum % 3]).get ⟨body.length, hi⟩ = body.sum % 3 := by
      simp [List.get_eq_getElem]
    have hcks : ¬(body.sum % 3 = y) := by
      rw [hgi] at hne
      omega
    rw [hset]
    simp only [checkAuth, renderWire]
    rw [strToWire_renderWire _ (hset ▸ hvalid2)]
    simp only [unsnoc_append]
    simp [hcks]

/-- Modifying any single character of a valid encoded cookie makes decode
reject it, at every decode time and max age. -/
theorem decodeCookie_flip (block : BlockCipher)
    (securityKey securityName : String) (values : GoMap) (now iv : Nat)
    (s : String) (henc : encodeCookie block securityKey securityName values now iv = .ok s)
    (i : Nat) (c : Char) (hi : i < s.data.length)
    (hne : c ≠ s.data.get ⟨i, hi⟩) (maxAge nowD : Int) :
    decodeCookie block securityKey securityName
      (String.mk (s.data.set i c)) maxAge nowD = none := by
  simp only [encodeCookie] at henc
  cases hpt : serializeMap values with
  | none => rw [hpt] at henc; simp at henc
  | some pt =>
    rw [hpt] at henc
    simp only [Except.ok.injEq] at henc
    set ct := encrypt block iv pt with hct
    set tag := mac securityKey securityName now ct with htag
    set body := encNat now ++ encList tag ++ encList ct with hbody
    set W : List Nat := body ++ [body.sum % 3] with hW
    have hvalid : wireValid W := by
      rw [hW]
      refine wireValid_append _ _ ?_ ?_
      · refine wireValid_append _ _ (wireValid_append _ _ (wireValid_encNat _)
          (wireValid_encList _)) (wireValid_encList _)
      · intro x hx
        simp only [List.mem_singleton] at hx
        subst hx
        omega
    have hdata : s.data = W.map symToChar := by
      rw [← henc]
      rfl
    have hstw : strToWire s.data = some W := by
      rw [hdata]
      exact strToWire_renderWire W hvalid
    have hiW : i < W.length := by
      rw [hdata, List.length_map] at hi
      exact hi
    have hsset := strToWire_set s.data W i c hstw hi
    cases hcs : charToSym c with
    | none =>
      rw [hcs] at hsset
      simp only at hsset
      simp [decodeCookie, checkAuth, hsset]
    | some y =>
      rw [hcs] at hsset
      simp only at hsset
      obtain ⟨hcy, hy3⟩ := charToSym_some c y hcs
      have hneW : y ≠ W.get ⟨i, hiW⟩ := by
        intro hcontra
        apply hne
        have hpoint := strToWire_get s.data W i hstw hi hiW
        rw [← hcontra] at hpoint
        obtain ⟨hc2, _⟩ := charToSym_some _ y hpoint
        rw [hcy, hc2]
      have hrej := checkAuth_set securityKey securityName body W hW i y
        hvalid hiW hy3 hneW
      have hrw : renderWire (W.set i y) = String.mk (s.data.set i c) := by
        simp only [renderWire, hdata, hcy]
        rw [List.map_set]
      rw [hrw] at hrej
      simp [decodeCookie, hrej]

/-! ### Lemmas: map operations -/

theorem mapGet_mapSet_self (m : GoMap) (k v : GoValue) :
    mapGet (mapSet m k v) k = some v := by
  induction m with
  | nil => simp [mapSet, mapGet]
  | cons p rest ih =>
    obtain ⟨k1, v1⟩ := p
    by_cases h : k1 = k
    · simp [mapSet, mapGet, h]
    · simp [mapSet, mapGet, h, ih]

theorem mapGet_mapDelete_self (m : GoMap) (k : GoValue) :
    mapGet (mapDelete m k) k = none := by
  induction m with
  | nil => simp [mapDelete, mapGet]
  | cons p rest ih =>
    obtain ⟨k1, v1⟩ := p
    by_cases h : k1 = k
    · simp [mapDelete, h, ih]
    · simp [mapDelete, mapGet, h, ih]

theorem mapDelete_absent (m : GoMap) (k : GoValue) (h : mapGet m k = none) :
    mapDelete m k = m := by
  induction m with
  | nil => simp [mapDelete]
  | cons p rest ih =>
    obtain ⟨k1, v1⟩ := p
    simp only [mapGet] at h
    by_cases hk : k1 = k
    · simp [hk] at h
    · simp only [mapDelete, if_neg hk, List.cons.injEq]
      rw [if_neg hk] at h
      exact ⟨trivial, ih h⟩

/-! ### Claim theorems -/

/-- C1: Codec round-trip: for every session value mapping `V` encodable by
the codec (witnessed by `encodeCookie` returning a string), decoding the
produced string with the same cipher, security key and security name
within the configured max-age window returns a mapping equal to `V`; in
particular a cookie encoded at time `T` still decodes at
`T + maxAge - 1`. -/
theorem claim_C1_roundtrip (block : BlockCipher)
    (securityKey securityName : String) (V : GoMap) (tEnc iv : Nat)
    (maxAge tDec : Int) (s : String)
    (henc : encodeCookie block securityKey securityName V tEnc iv = .ok s)
    (hage : tDec - (tEnc : Int) ≤ maxAge) :
    decodeCookie block securityKey securityName s maxAge tDec = some V :=
  decodeCookie_encodeCookie block securityKey securityName V tEnc iv
    maxAge tDec s henc hage

/-- Witness for C1: the empty mapping encoded at time 1 with max age 60
still decodes at time 60 = 1 + 60 - 1. -/
theorem claim_C1_roundtrip_witness :
    decodeCookie blkW "" "" c1s 60 60 = some [] :=
  claim_C1_roundtrip blkW "" "" [] 1 0 60 60 c1s rfl (by decide)

/-- C2: Fail-closed decode: any input failing authentication (in
particular any single-character modification of a valid encoded cookie),
and any authenticated input whose embedded timestamp exceeds the max age,
decodes to nothing; and `SessionRead` turns a failed decode into an empty
(non-nil) mapping with no error surfaced. -/
theorem claim_C2_fail_closed (block : BlockCipher)
    (securityKey securityName : String) (maxAge now : Int) :
    (∀ s : String, checkAuth securityKey securityName s = none →
      decodeCookie block securityKey securityName s maxAge now = none) ∧
    (∀ (s : String) (ts : Nat) (ct : List Nat),
      checkAuth securityKey securityName s = some (ts, ct) →
      now - (ts : Int) > maxAge →
      decodeCookie block securityKey securityName s maxAge now = none) ∧
    (∀ (values : GoMap) (tEnc iv : Nat) (s : String),
      encodeCookie block securityKey securityName values tEnc iv = .ok s →
      ∀ (i : Nat) (c : Char) (hi : i < s.data.length),
        c ≠ s.data.get ⟨i, hi⟩ →
        decodeCookie block securityKey securityName
          (String.mk (s.data.set i c)) maxAge now = none) ∧
    (∀ (pder : CookieProvider) (sid : String) (nowR : Int),
      decodeCookie pder.block pder.config.SecurityKey
        pder.config.SecurityName sid pder.maxlifetime nowR = none →
      SessionRead pder sid nowR = (⟨sid, []⟩, none)) := by
  refine ⟨?_, ?_, ?_, ?_⟩
  · intro s h
    simp [decodeCookie, h]
  · intro s ts ct h hexp
    simp only [decodeCookie, h]
    rw [if_pos hexp]
  · intro values tEnc iv s henc i c hi hne
    exact decodeCookie_flip block securityKey securityName values tEnc iv s
      henc i c hi hne maxAge now
  · intro pder sid nowR h
    simp [SessionRead, h]

/-- Witness for C2: a foreign string fails authentication and decodes to
nothing; the valid cookie of time 1 is rejected at time 200 with max age
60; flipping the first character of the valid cookie makes decode reject
it; and `SessionRead` on a failed decode returns the empty store with a
nil error. -/
theorem claim_C2_fail_closed_witness :
    decodeCookie blkW "" "" "@@" 60 100 = none ∧
    decodeCookie blkW "" "" c1s 60 200 = none ∧
    decodeCookie blkW "" ""
      (String.mk (c1s.data.set 0 'c')) 60 100 = none ∧
    SessionRead pder0 "@@" 100 = (⟨"@@", []⟩, none) := by
  refine ⟨?_, ?_, ?_, ?_⟩
  · exact (claim_C2_fail_closed blkW "" "" 60 100).1 "@@" rfl
  · exact (claim_C2_fail_closed blkW "" "" 60 200).2.1 c1s 1 c1ct rfl
      (by decide)
  · exact (claim_C2_fail_closed blkW "" "" 60 100).2.2.1 [] 1 0 c1s rfl 0 'c'
      (by decide) (by decide)
  · exact (claim_C2_fail_closed blkW "" "" 60 100).2.2.2 pder0 "@@" 100 rfl

/-- C3: `SessionRead` is total and non-failing: for every sid it returns a
store and a nil error; the store's identifier is the given sid; and when
decode fails the store's value mapping is the empty one. -/
theorem claim_C3_read_total (pder : CookieProvider) (sid : String) (now : Int) :
    (SessionRead pder sid now).2 = none ∧
    (SessionRead pder sid now).1.SessionID = sid ∧
    (decodeCookie pder.block pder.config.SecurityKey
        pder.config.SecurityName sid pder.maxlifetime now = none →
      (SessionRead pder sid now).1.values = []) := by
  refine ⟨rfl, rfl, ?_⟩
  intro h
  simp [SessionRead, h]

/-- Witness for C3: reading a tampered sid yields a nil error, the sid
itself, and an empty mapping. -/
theorem claim_C3_read_total_witness :
    (SessionRead pder0 "tampered" 0).2 = none ∧
    (SessionRead pder0 "tampered" 0).1.SessionID = "tampered" ∧
    (SessionRead pder0 "tampered" 0).1.values = [] :=
  ⟨(claim_C3_read_total pder0 "tampered" 0).1,
   (claim_C3_read_total pder0 "tampered" 0).2.1,
   (claim_C3_read_total pder0 "tampered" 0).2.2 rfl⟩

/-- C4: `SessionRelease`: on encode success exactly one cookie is written,
with name the configured cookie name, value the URL-escaped encoded
string, path "/", HttpOnly, Secure per config and MaxAge per config; on
encode failure no cookie is written (and no error is raised: the method
returns normally either way). -/
theorem claim_C4_release (pder : CookieProvider) (st : CookieSessionStore)
    (now iv : Nat) :
    (∀ s : String,
      encodeCookie pder.block pder.config.SecurityKey
        pder.config.SecurityName st.values now iv = .ok s →
      st.SessionRelease pder now iv =
        [⟨pder.config.CookieName, urlQueryEscape s, "/", true,
          pder.config.Secure, pder.config.Maxage⟩]) ∧
    (∀ e : String,
      encodeCookie pder.block pder.config.SecurityKey
        pder.config.SecurityName st.values now iv = .error e →
      st.SessionRelease pder now iv = []) := by
  constructor
  · intro s h
    simp [CookieSessionStore.SessionRelease, h]
  · intro e h
    simp [CookieSessionStore.SessionRelease, h]

/-- Witness for C4: releasing the empty store writes exactly the expected
cookie; releasing a store holding an unserializable value writes none. -/
theorem claim_C4_release_witness :
    st0.SessionRelease pder0 5 0 =
      [⟨"gosessionid", urlQueryEscape c4s, "/", true, false, 3600⟩] ∧
    stBad.SessionRelease pder0 5 0 = [] :=
  ⟨(claim_C4_release pder0 st0 5 0).1 c4s rfl,
   (claim_C4_release pder0 stBad 5 0).2 "gob: unsupported value type" rfl⟩

/-- C5: `SessionInit` errors on a malformed configuration payload and on a
block key the AES cipher rejects; on success an empty block key is
replaced by a generated random key of a length the cipher accepts (16
bytes), an empty security name by a generated random label, and the
cipher instance is constructed from the (possibly generated) block
key. -/
theorem claim_C5_init (rnd : Nat → String) (maxlifetime : Int)
    (hrnd : ∀ n, (rnd n).length = n) :
    (∀ raw, ∃ e, SessionInit rnd maxlifetime (.malformed raw) = .error e) ∧
    (∀ c : cookieConfig, c.BlockKey ≠ "" →
      ¬(c.BlockKey.length = 16 ∨ c.BlockKey.length = 24 ∨ c.BlockKey.length = 32) →
      ∃ e, SessionInit rnd maxlifetime (.wellFormed c) = .error e) ∧
    (∀ (c : cookieConfig) (pder : CookieProvider),
      SessionInit rnd maxlifetime (.wellFormed c) = .ok pder →
      (c.BlockKey = "" →
        pder.config.BlockKey = rnd 16 ∧ pder.config.BlockKey.length = 16) ∧
      (c.SecurityName = "" → pder.config.SecurityName = rnd 20) ∧
      pder.block = ⟨pder.config.BlockKey⟩) := by
  refine ⟨fun raw => ⟨_, rfl⟩, ?_, ?_⟩
  · intro c hbk hlen
    refine ⟨"crypto/aes: invalid key size", ?_⟩
    simp only [SessionInit, jsonUnmarshalConfig]
    rw [if_neg hbk]
    by_cases hsn : c.SecurityName = "" <;>
      simp [hsn, aesNewCipher, hlen]
  · intro c pder h
    simp only [SessionInit, jsonUnmarshalConfig] at h
    by_cases hbk : c.BlockKey = ""
    · rw [if_pos hbk] at h
      by_cases hsn : c.SecurityName = ""
      · rw [if_pos hsn] at h
        rw [show aesNewCipher (rnd 16) = .ok ⟨rnd 16⟩ from by
          simp [aesNewCipher, hrnd 16]] at h
        simp only [Except.ok.injEq] at h
        subst h
        exact ⟨fun _ => ⟨rfl, hrnd 16⟩, fun _ => rfl, rfl⟩
      · rw [if_neg hsn] at h
        rw [show aesNewCipher (rnd 16) = .ok ⟨rnd 16⟩ from by
          simp [aesNewCipher, hrnd 16]] at h
        simp only [Except.ok.injEq] at h
        subst h
        exact ⟨fun _ => ⟨rfl, hrnd 16⟩, fun hc => absurd hc hsn, rfl⟩
    · rw [if_neg hbk] at h
      by_cases hsn : c.SecurityName = ""
      · rw [if_pos hsn] at h
        cases haes : aesNewCipher c.BlockKey with
        | error e => rw [haes] at h; simp at h
        | ok b =>
          have hbkey : b = ⟨c.BlockKey⟩ := by
            simp only [aesNewCipher] at haes
            split_ifs at haes with hc
            simpa using haes.symm
          rw [haes] at h
          simp only [Except.ok.injEq] at h
          subst h
          subst hbkey
          exact ⟨fun hc => absurd hc hbk, fun _ => rfl, rfl⟩
      · rw [if_neg hsn] at h
        cases haes : aesNewCipher c.BlockKey with
        | error e => rw [haes] at h; simp at h
        | ok b =>
          have hbkey : b = ⟨c.BlockKey⟩ := by
            simp only [aesNewCipher] at haes
            split_ifs at haes with hc
            simpa using haes.symm
          rw [haes] at h
          simp only [Except.ok.injEq] at h
          subst h
          subst hbkey
          exact ⟨fun hc => absurd hc hbk, fun hc => absurd hc hsn, rfl⟩

/-- Witness for C5: a malformed payload errors; an 8-byte block key
errors; on success with empty block key and security name both are
generated (the key 16 bytes long) and the cipher holds the generated
key. -/
theorem claim_C5_init_witness :
    (∃ e, SessionInit rnd0 7 (.malformed "not json") = .error e) ∧
    (∃ e, SessionInit rnd0 7 (.wellFormed cfgBad5) = .error e) ∧
    (pder5.config.BlockKey = rnd0 16 ∧ pder5.config.BlockKey.length = 16) ∧
    pder5.config.SecurityName = rnd0 20 ∧
    pder5.block = ⟨pder5.config.BlockKey⟩ := by
  have h := claim_C5_init rnd0 7 (fun n => by simp [rnd0, String.length])
  exact ⟨h.1 "not json", h.2.1 cfgBad5 (by decide) (by decide),
    (h.2.2 cfg5 pder5 rfl).1 rfl, (h.2.2 cfg5 pder5 rfl).2.1 rfl,
    (h.2.2 cfg5 pder5 rfl).2.2⟩

/-- C6: the max-age bound used at decode time is the `maxlifetime` stored
by the most recent successful `SessionInit` (not the configuration's
`maxage` field): after `SessionInit` with lifetime `ml`, `SessionRead`
always decodes with max age `ml`. -/
theorem claim_C6_decode_maxage (rnd : Nat → String) (ml : Int)
    (config : ConfigPayload) (pder : CookieProvider)
    (h : SessionInit rnd ml config = .ok pder) :
    pder.maxlifetime = ml ∧
    ∀ (sid : String) (now : Int),
      SessionRead pder sid now =
        (⟨sid, (decodeCookie pder.block pder.config.SecurityKey
            pder.config.SecurityName sid ml now).getD []⟩, none) := by
  have hml : pder.maxlifetime = ml := by
    cases config with
    | malformed raw => simp [SessionInit, jsonUnmarshalConfig] at h
    | wellFormed c =>
      simp only [SessionInit, jsonUnmarshalConfig] at h
      cases haes : aesNewCipher
          ((if (if c.BlockKey = "" then { c with BlockKey := rnd 16 }
              else c).SecurityName = ""
            then { (if c.BlockKey = "" then { c with BlockKey := rnd 16 }
              else c) with SecurityName := rnd 20 }
            else (if c.BlockKey = "" then { c with BlockKey := rnd 16 }
              else c)).BlockKey) with
      | error e => rw [haes] at h; simp at h
      | ok b =>
        rw [haes] at h
        simp only [Except.ok.injEq] at h
        rw [← h]
  exact ⟨hml, fun sid now => by rw [SessionRead, hml]⟩

/-- Witness for C6: after `SessionInit` with lifetime 7 on a configuration
whose `maxage` is 10, `SessionRead` decodes with max age 7. -/
theorem claim_C6_decode_maxage_witness :
    pder5.maxlifetime = 7 ∧
    SessionRead pder5 "zz" 3 =
      (⟨"zz", (decodeCookie pder5.block pder5.config.SecurityKey
          pder5.config.SecurityName "zz" 7 3).getD []⟩, none) :=
  ⟨(claim_C6_decode_maxage rnd0 7 (.wellFormed cfg5) pder5 rfl).1,
   (claim_C6_decode_maxage rnd0 7 (.wellFormed cfg5) pder5 rfl).2 "zz" 3⟩

/-- C7: the no-op capability contract: `SessionExist` is always true,
`SessionAll` is always 0, `SessionDestroy` and `SessionUpdate` return a
nil error, and `SessionRegenerate` returns a nil error and no usable
store. -/
theorem claim_C7_noop (pder : CookieProvider) (sid oldsid : String) :
    SessionExist pder sid = true ∧ SessionAll pder = 0 ∧
    SessionDestroy pder sid = none ∧ SessionUpdate pder sid = none ∧
    SessionRegenerate pder oldsid sid = (none, none) :=
  ⟨rfl, rfl, rfl, rfl, rfl⟩

/-- C8: Set/Get law: `Set` inserts or overwrites and returns a nil error,
a subsequent `Get` of the same key returns the value just set, and `Get`
of an unbound key returns the not-found sentinel (nil). -/
theorem claim_C8_set_get (st : CookieSessionStore) (k v : GoValue) :
    (st.Set k v).2 = none ∧
    (st.Set k v).1.Get k = v ∧
    (mapGet st.values k = none → st.Get k = GoValue.nil) := by
  refine ⟨rfl, ?_, ?_⟩
  · simp [CookieSessionStore.Set, CookieSessionStore.Get, mapGet_mapSet_self]
  · intro h
    simp [CookieSessionStore.Get, h]

/-- Witness for C8: on the empty store, `Set` then `Get` returns the set
value and `Get` of the unbound key returns nil. -/
theorem claim_C8_set_get_witness :
    (st0.Set (.strV "uid") (.intV 42)).2 = none ∧
    (st0.Set (.strV "uid") (.intV 42)).1.Get (.strV "uid") = .intV 42 ∧
    st0.Get (.strV "uid") = GoValue.nil :=
  ⟨(claim_C8_set_get st0 (.strV "uid") (.intV 42)).1,
   (claim_C8_set_get st0 (.strV "uid") (.intV 42)).2.1,
   (claim_C8_set_get st0 (.strV "uid") (.intV 42)).2.2 rfl⟩

/-- C9: `Delete` removes the binding (a subsequent `Get` returns the
not-found sentinel), leaves the mapping unchanged when the key is absent,
and returns a nil error; `Flush` replaces the mapping with an empty one,
after which `Get` returns the sentinel for every key, and returns a nil
error. -/
theorem claim_C9_delete_flush (st : CookieSessionStore) (k : GoValue) :
    (st.Delete k).2 = none ∧
    (st.Delete k).1.Get k = GoValue.nil ∧
    (mapGet st.values k = none → (st.Delete k).1.values = st.values) ∧
    st.Flush.2 = none ∧
    st.Flush.1.values = [] ∧
    (∀ k1, st.Flush.1.Get k1 = GoValue.nil) := by
  refine ⟨rfl, ?_, ?_, rfl, rfl, ?_⟩
  · simp [CookieSessionStore.Delete, CookieSessionStore.Get, mapGet_mapDelete_self]
  · intro h
    simp [CookieSessionStore.Delete, mapDelete_absent st.values k h]
  · intro k1
    simp [CookieSessionStore.Flush, CookieSessionStore.Get, mapGet]

/-- Witness for C9: deleting a bound key removes it, deleting an absent
key leaves the mapping unchanged, and flushing empties the store. -/
theorem claim_C9_delete_flush_witness :
    (stBad.Delete GoValue.nil).2 = none ∧
    (stBad.Delete GoValue.nil).1.Get GoValue.nil = GoValue.nil ∧
    (stBad.Delete (GoValue.strV "x")).1.values = stBad.values ∧
    stBad.Flush.2 = none ∧
    stBad.Flush.1.values = [] ∧
    stBad.Flush.1.Get GoValue.nil = GoValue.nil :=
  ⟨(claim_C9_delete_flush stBad GoValue.nil).1,
   (claim_C9_delete_flush stBad GoValue.nil).2.1,
   (claim_C9_delete_flush stBad (GoValue.strV "x")).2.2.1 rfl,
   (claim_C9_delete_flush stBad GoValue.nil).2.2.2.1,
   (claim_C9_delete_flush stBad GoValue.nil).2.2.2.2.1,
   (claim_C9_delete_flush stBad GoValue.nil).2.2.2.2.2 GoValue.nil⟩

/-- C10: the not-found sentinel is nil, the same value a caller may
store: after `Set k nil`, `Get k` returns nil, so a key bound to nil is
indistinguishable via `Get` from an absent key. -/
theorem claim_C10_nil_sentinel (st stA : CookieSessionStore) (k : GoValue)
    (h : mapGet stA.values k = none) :
    (st.Set k GoValue.nil).1.Get k = GoValue.nil ∧
    stA.Get k = (st.Set k GoValue.nil).1.Get k := by
  have h1 : (st.Set k GoValue.nil).1.Get k = GoValue.nil := by
    simp [CookieSessionStore.Set, CookieSessionStore.Get, mapGet_mapSet_self]
  refine ⟨h1, ?_⟩
  rw [h1]
  simp [CookieSessionStore.Get, h]

/-- Witness for C10: on the empty store, setting nil under a key and
reading it back gives nil, the same answer `Get` gives for the absent
key. -/
theorem claim_C10_nil_sentinel_witness :
    (st0.Set GoValue.nil GoValue.nil).1.Get GoValue.nil = GoValue.nil ∧
    st0.Get GoValue.nil = (st0.Set GoValue.nil GoValue.nil).1.Get GoValue.nil :=
  claim_C10_nil_sentinel st0 st0 GoValue.nil rfl
